import Mathlib

/-!
Shallow embedding of the core of `LuceneInRust`:

* `src/base/src/exec/doc_writer_per_thread_pool.rs` — the bounded slot
  bitmap (`DocumentsWriterPerThreadPool`): a 64-bit word mutated by
  `set_bit`/`unset_bit` via atomic fetch-or / fetch-and.  We model the
  word as a `Nat` kept below `2 ^ 64`; each atomic read-modify-write is a
  pure function from the old word to (returned Bool, new word), which is
  the linearization of the atomic instruction.

* `src/base/src/exec/approx_priority_queue.rs` — the approximate
  priority queue (`ApproximatePriorityQueue<T>`): a `Vec<Option<T>>`
  (`pages`, modelled as `List (Option T)`) together with a `usize`
  occupancy bitmap (`used_slots`, modelled as a `Nat` below `2 ^ 64`).
  In the source `WeightTy = u8` and `SIZE = size_of::<WeightTy>() * 8 = 8`.
  Rust panics (failed `assert!`, out-of-bounds indexing) and the
  `eyre::Result` error channel are both modelled as `Except` errors with
  distinct constructors, so the two never get conflated.
-/

namespace LuceneInRust

/-- Bitwise NOT of a 64-bit machine word: for `x < 2 ^ 64` this is exactly
Rust's `!x` on `u64`/`usize` (XOR with the all-ones 64-bit mask). -/
def u64not (x : Nat) : Nat := x ^^^ (2 ^ 64 - 1)

/-! ### Bounded slot bitmap (`doc_writer_per_thread_pool.rs`) -/

/-- Embedding of `DocumentsWriterPerThreadPool::set_bit`.  The source does
`(self.pages.fetch_or(bit_i, AcqRel) & bit_i) == 0` with `bit_i = 1 << i`;
`fetch_or` returns the old word and stores `old | bit_i`.  We return the
Bool result together with the new word. -/
def set_bit (w i : Nat) : Bool × Nat :=
  (decide (w &&& (1 <<< i) = 0), w ||| (1 <<< i))

/-- Embedding of `DocumentsWriterPerThreadPool::unset_bit`.  The source does
`(self.pages.fetch_and(!bit_i, Release) & bit_i) != 0`; `fetch_and` returns
the old word and stores `old & !bit_i`. -/
def unset_bit (w i : Nat) : Bool × Nat :=
  (decide (¬ w &&& (1 <<< i) = 0), w &&& u64not (1 <<< i))

/-- The linearization of `n` concurrent `set_bit i` calls on the shared
word: the atomic `fetch_or` makes every concurrent execution equivalent to
running the calls in some sequential order, and all orders of the same
call are the same sequence.  Returns the list of Bool results. -/
def setBitSeq (i w : Nat) : Nat → List Bool
  | 0 => []
  | n + 1 =>
    let r := set_bit w i
    r.1 :: setBitSeq i r.2 n

/-! ### Approximate priority queue (`approx_priority_queue.rs`) -/

/-- The source has `WeightTy = u8` and
`const SIZE: usize = std::mem::size_of::<WeightTy>() * 8`, i.e. `8`. -/
def SIZE : Nat := 8

/-- Fuelled count of significant binary digits (positions up to the
highest set bit); with fuel 8 this is the bit length of an 8-bit value. -/
def bitLenAux : Nat → Nat → Nat
  | 0, _ => 0
  | fuel + 1, x => if x = 0 then 0 else bitLenAux fuel (x / 2) + 1

/-- Embedding of `u8::leading_zeros`: the number of leading zero bits of
an 8-bit weight, i.e. 8 minus the bit length (`8` for weight `0`, `0`
for weight `255`). -/
def u8_leading_zeros (w : Nat) : Nat := 8 - bitLenAux 8 w

/-- Auxiliary fuelled count of trailing zero bits. -/
def tzAux : Nat → Nat → Nat
  | 0, _ => 0
  | fuel + 1, x => if x % 2 = 1 then 0 else tzAux fuel (x / 2) + 1

/-- Embedding of `u64::trailing_zeros` / `usize::trailing_zeros` for a
64-bit machine word: number of trailing zero bits, `64` for the zero
word.  Agrees with Rust for every `x < 2 ^ 64`. -/
def trailing_zeros64 (x : Nat) : Nat := tzAux 64 x

/-- Embedding of `ApproximatePriorityQueue<T>`: `pages: Vec<Option<T>>`
and the occupancy bitmap `used_slots: usize` for the first `SIZE` slots. -/
structure APQ (T : Type) where
  pages : List (Option T)
  used_slots : Nat
deriving DecidableEq

/-- Panics and the `eyre` error channel of the queue, kept distinct:
`internalShiftErr` is the one genuine `eyre::Result` error (the
`checked_shr` failure in `poll`); the other constructors model Rust
panics (failed `assert!`, out-of-bounds `Vec` indexing, and the fuel
bound of the embedded `poll` loop, which is provably never hit). -/
inductive QErr
  | internalShiftErr
  | indexOob
  | assertOldSome
  | assertDestBelowExpected
  | loopFuelOut
deriving DecidableEq

variable {T : Type}

/-- Embedding of `ApproximatePriorityQueue::new`: `SIZE` pre-allocated
empty pages, empty bitmap. -/
def APQ.new : APQ T := ⟨List.replicate SIZE none, 0⟩

/-- Embedding of `ApproximatePriorityQueue::add`.  Branches map 1:1 onto
the source: `expected_slot = weight.leading_zeros()`; if it is below
`SIZE`, `destination_slot = expected_slot + (!used_slots >>
expected_slot).trailing_zeros()` (the nearest free slot to the right);
a `destination_slot` below `SIZE` claims that slot (the source asserts
the slot held `None`), otherwise the entry is pushed onto the overflow
tail; an `expected_slot` of `SIZE` or more pushes directly.  The source's
`assert!(destination_slot >= expected_slot)` and `assert!(old.is_none())`
panics are the two assert error constructors. -/
def APQ.add (s : APQ T) (entry : T) (weight : Nat) : Except QErr (APQ T) :=
  let expected_slot := u8_leading_zeros weight
  if expected_slot < SIZE then
    let free_slots := u64not s.used_slots
    let destination_slot := expected_slot + trailing_zeros64 (free_slots >>> expected_slot)
    if destination_slot < expected_slot then .error .assertDestBelowExpected
    else if destination_slot < SIZE then
      match s.pages[destination_slot]? with
      | some none =>
          .ok ⟨s.pages.set destination_slot (some entry),
               s.used_slots ||| (1 <<< destination_slot)⟩
      | some (some _) => .error .assertOldSome
      | none => .error .indexOob
    else .ok ⟨s.pages ++ [some entry], s.used_slots⟩
  else .ok ⟨s.pages ++ [some entry], s.used_slots⟩

/-- Embedding of the fast-path loop of `ApproximatePriorityQueue::poll`.
Each iteration computes `next = idx + (used_slots.checked_shr(idx))
.trailing_zeros()`; `checked_shr` fails for `idx ≥ 64` (the
`InternalErr::IllegalOperation` error), `next ≥ SIZE` leaves the loop
with no match, a matching occupied slot at `next` is returned, and
otherwise the loop continues from `next + 1`.  The loop recurses only
with `idx < SIZE`, so `idx` strictly increases while staying at most
`SIZE`: at most `SIZE + 1` iterations ever run and the fuel of
`SIZE + 1 = 9` used by `poll` below is never exhausted. -/
def APQ.pollFastAux (us : Nat) (pages : List (Option T)) (p : T → Bool) :
    Nat → Nat → Except QErr (Option (Nat × T))
  | 0, _ => .error .loopFuelOut
  | fuel + 1, idx =>
    if 64 ≤ idx then .error .internalShiftErr
    else
      let next := idx + trailing_zeros64 (us >>> idx)
      if SIZE ≤ next then .ok none
      else
        match pages[next]? with
        | none => .error .indexOob
        | some none => APQ.pollFastAux us pages p fuel (next + 1)
        | some (some x) =>
          if p x then .ok (some (next, x))
          else APQ.pollFastAux us pages p fuel (next + 1)

/-- Embedding of the overflow scan of `ApproximatePriorityQueue::poll`:
`pages.iter().rev().enumerate().take(pages.len() - SIZE).find_map(...)`
visits positions `pages.len() - 1` down to `SIZE` and yields the first
entry matching the predicate; the source then converts the reversed index
back with `len - matching_idx - 1`.  Here `ovScan pages p fuel` examines
position `SIZE + fuel - 1` first and returns the matched position
directly together with the matched entry. -/
def APQ.ovScan (pages : List (Option T)) (p : T → Bool) : Nat → Option (Nat × T)
  | 0 => none
  | k + 1 =>
    match pages[SIZE + k]? with
    | some (some x) => if p x then some (SIZE + k, x) else APQ.ovScan pages p k
    | _ => APQ.ovScan pages p k

/-- Embedding of `ApproximatePriorityQueue::poll`.  A fast-path match at
slot `i` clears occupancy bit `i` and `take`s the page (replaces it with
`None`); failing that, the overflow scan `take`s the matched overflow
position — the page is replaced by `None`, the vector is not shrunk. -/
def APQ.poll (s : APQ T) (p : T → Bool) : Except QErr (Option T × APQ T) :=
  match APQ.pollFastAux s.used_slots s.pages p (SIZE + 1) 0 with
  | .error e => .error e
  | .ok (some (i, x)) =>
      .ok (some x, ⟨s.pages.set i none, s.used_slots &&& u64not (1 <<< i)⟩)
  | .ok none =>
      match APQ.ovScan s.pages p (s.pages.length - SIZE) with
      | some (j, x) => .ok (some x, ⟨s.pages.set j none, s.used_slots⟩)
      | none => .ok (none, s)

/-- Embedding of `ApproximatePriorityQueue::remove`: find the first index
whose page holds an entry equal to the argument; an index at `SIZE` or
beyond is `Vec::remove`d (shifting the tail down), a fast-path index has
its occupancy bit cleared and its page `take`n. -/
def APQ.remove [DecidableEq T] (s : APQ T) (entry : T) : Bool × APQ T :=
  match s.pages.findIdx? (fun item => item = some entry) with
  | some i =>
    if SIZE ≤ i then (true, ⟨s.pages.eraseIdx i, s.used_slots⟩)
    else (true, ⟨s.pages.set i none, s.used_slots &&& u64not (1 <<< i)⟩)
  | none => (false, s)

/-- Embedding of `ApproximatePriorityQueue::is_empty`:
`used_slots == 0` — the overflow tail is not inspected. -/
def APQ.is_empty (s : APQ T) : Bool := s.used_slots == 0

/-- The queue states reachable from `new` by the public mutating calls
(`add` with an 8-bit weight, `poll` with any predicate, `remove`), where
a fallible call contributes the state it succeeded with. -/
inductive Reachable [DecidableEq T] : APQ T → Prop
  | new : Reachable APQ.new
  | add {s s2 : APQ T} (entry : T) (weight : Nat) (hw : weight < 256)
      (hs : Reachable s) (h : s.add entry weight = .ok s2) : Reachable s2
  | poll {s s2 : APQ T} (p : T → Bool) (r : Option T)
      (hs : Reachable s) (h : s.poll p = .ok (r, s2)) : Reachable s2
  | remove {s : APQ T} (entry : T) (hs : Reachable s) :
      Reachable (s.remove entry).2

/-- The internal invariant of the queue: the bitmap uses only the low
`SIZE` bits, the backing vector never shrinks below the `SIZE`
pre-allocated fast-path pages, and occupancy bit `i` agrees with page
`i` holding an entry. -/
def Inv (s : APQ T) : Prop :=
  s.used_slots < 2 ^ SIZE ∧ SIZE ≤ s.pages.length ∧
    ∀ i, i < SIZE → s.used_slots.testBit i = (s.pages.getD i none).isSome

/-- Whether a fallible queue operation produced a success value rather
than an error (Rust: `Result::is_ok`). -/
def isOkB {α : Type} (r : Except QErr α) : Bool :=
  match r with
  | .ok _ => true
  | .error _ => false

/-! ### Bit-level lemmas -/

theorem tzAux_testBit_false (fuel : Nat) :
    ∀ (x j : Nat), j < tzAux fuel x → x.testBit j = false := by
  induction fuel with
  | zero => intro x j h; simp [tzAux] at h
  | succ fuel ih =>
    intro x j h
    by_cases hx : x % 2 = 1
    · simp [tzAux, hx] at h
    · simp only [tzAux, hx, if_false] at h
      cases j with
      | zero => simp only [Nat.testBit_zero, decide_eq_false_iff_not]; exact hx
      | succ j2 =>
        rw [Nat.testBit_succ]
        exact ih (x / 2) j2 (by omega)

theorem tzAux_testBit_true (fuel : Nat) :
    ∀ (x : Nat), tzAux fuel x < fuel → x.testBit (tzAux fuel x) = true := by
  induction fuel with
  | zero => intro x h; omega
  | succ fuel ih =>
    intro x h
    by_cases hx : x % 2 = 1
    · simp [tzAux, hx]
    · simp only [tzAux, hx, if_false] at h ⊢
      rw [Nat.testBit_succ]
      exact ih (x / 2) (by omega)

theorem testBit_u64not (x i : Nat) (h : i < 64) :
    (u64not x).testBit i = !x.testBit i := by
  unfold u64not
  rw [Nat.testBit_xor, Nat.testBit_two_pow_sub_one]
  simp [h]

theorem testBit_u64not_ge (x i : Nat) (h : 64 ≤ i) :
    (u64not x).testBit i = x.testBit i := by
  unfold u64not
  rw [Nat.testBit_xor, Nat.testBit_two_pow_sub_one]
  have h2 : ¬ i < 64 := by omega
  simp [h2]

/-- The destination slot computed by `add` is free: the trailing-zero
count of the shifted complement of the bitmap lands on a cleared bit
whenever it stays below `SIZE`. -/
theorem dest_free (us e : Nat)
    (h : e + trailing_zeros64 (u64not us >>> e) < SIZE) :
    us.testBit (e + trailing_zeros64 (u64not us >>> e)) = false := by
  have h1 : trailing_zeros64 (u64not us >>> e) < 64 := by
    have := h; unfold SIZE at this; omega
  have h2 : (u64not us >>> e).testBit (trailing_zeros64 (u64not us >>> e)) = true :=
    tzAux_testBit_true 64 _ h1
  rw [Nat.testBit_shiftRight] at h2
  have h3 : e + trailing_zeros64 (u64not us >>> e) < 64 := by
    unfold SIZE at h; omega
  rw [testBit_u64not us _ h3] at h2
  simpa using h2

theorem and_one_shiftLeft_eq_zero_iff (w i : Nat) :
    w &&& (1 <<< i) = 0 ↔ w.testBit i = false := by
  rw [Nat.one_shiftLeft]
  constructor
  · intro h
    have := congrArg (fun z => z.testBit i) h
    simpa [Nat.testBit_and, Nat.testBit_two_pow_self] using this
  · intro h
    apply Nat.eq_of_testBit_eq
    intro j
    by_cases hj : i = j
    · subst hj; simp [Nat.testBit_and, h]
    · simp [Nat.testBit_and, Nat.testBit_two_pow_of_ne hj]

theorem testBit_and_u64not_shiftLeft (w i j : Nat) (hj : j < 64) :
    (w &&& u64not (1 <<< i)).testBit j = (w.testBit j && !decide (i = j)) := by
  rw [Nat.one_shiftLeft, Nat.testBit_and, testBit_u64not _ _ hj, Nat.testBit_two_pow]

/-! ### The queue invariant -/

theorem inv_new : Inv (APQ.new : APQ T) := by
  refine ⟨?_, by simp [APQ.new], ?_⟩
  · show (0 : Nat) < 2 ^ SIZE
    positivity
  · intro i hi
    have hi8 : i < 8 := by simpa [SIZE] using hi
    simp [APQ.new, List.getD_eq_getElem?_getD, List.getElem?_replicate, hi8, SIZE]
    interval_cases i <;> rfl

theorem inv_push (s : APQ T) (hs : Inv s) (e : T) :
    Inv ⟨s.pages ++ [some e], s.used_slots⟩ := by
  obtain ⟨h1, h2, h3⟩ := hs
  refine ⟨h1, by simp; omega, ?_⟩
  intro i hi
  have hi2 : i < s.pages.length := lt_of_lt_of_le hi h2
  simp only [List.getD_eq_getElem?_getD, List.getElem?_append_left hi2]
  simpa [List.getD_eq_getElem?_getD] using h3 i hi

theorem page_none_of_bit_false (s : APQ T) (hs : Inv s) (d : Nat) (hd : d < SIZE)
    (hfree : s.used_slots.testBit d = false) : s.pages[d]? = some none := by
  obtain ⟨h1, h2, h3⟩ := hs
  have hd2 : d < s.pages.length := lt_of_lt_of_le hd h2
  have := h3 d hd
  rw [hfree] at this
  rcases hget : s.pages[d]? with _ | o
  · exact absurd (List.getElem?_eq_none_iff.mp hget) (by omega)
  · rcases o with _ | y
    · rfl
    · rw [List.getD_eq_getElem?_getD, hget] at this
      simp at this

theorem inv_claim (s : APQ T) (hs : Inv s) (e : T) (d : Nat) (hd : d < SIZE) :
    Inv ⟨s.pages.set d (some e), s.used_slots ||| (1 <<< d)⟩ := by
  obtain ⟨h1, h2, h3⟩ := hs
  have hd2 : d < s.pages.length := lt_of_lt_of_le hd h2
  refine ⟨?_, by simpa using h2, ?_⟩
  · rw [Nat.one_shiftLeft]
    exact Nat.or_lt_two_pow h1 (Nat.pow_lt_pow_right (by omega) hd)
  · intro i hi
    rw [Nat.one_shiftLeft, Nat.testBit_or, Nat.testBit_two_pow]
    by_cases hid : d = i
    · subst hid
      simp [List.getD_eq_getElem?_getD, List.getElem?_set_self hd2]
    · rw [List.getD_eq_getElem?_getD, List.getElem?_set_ne hid]
      simpa [hid, List.getD_eq_getElem?_getD] using h3 i hi

theorem inv_clear (s : APQ T) (hs : Inv s) (i : Nat) (hi : i < SIZE) :
    Inv ⟨s.pages.set i none, s.used_slots &&& u64not (1 <<< i)⟩ := by
  obtain ⟨h1, h2, h3⟩ := hs
  have hi2 : i < s.pages.length := lt_of_lt_of_le hi h2
  refine ⟨lt_of_le_of_lt Nat.and_le_left h1, by simpa using h2, ?_⟩
  intro j hj
  have hj64 : j < 64 := by unfold SIZE at hj; omega
  rw [testBit_and_u64not_shiftLeft _ _ _ hj64]
  by_cases hij : i = j
  · subst hij
    simp [List.getD_eq_getElem?_getD, List.getElem?_set_self hi2]
  · rw [List.getD_eq_getElem?_getD, List.getElem?_set_ne hij]
    simpa [hij, List.getD_eq_getElem?_getD] using h3 j hj

/-! ### Behaviour of `add` -/

theorem add_ok_inv (s : APQ T) (hs : Inv s) (e : T) (w : Nat) :
    ∃ s2, s.add e w = .ok s2 ∧ Inv s2 := by
  simp only [APQ.add]
  by_cases he : u8_leading_zeros w < SIZE
  · rw [if_pos he]
    have hge : ¬ u8_leading_zeros w + trailing_zeros64 (u64not s.used_slots >>> u8_leading_zeros w)
        < u8_leading_zeros w := by omega
    rw [if_neg hge]
    by_cases hd : u8_leading_zeros w + trailing_zeros64 (u64not s.used_slots >>> u8_leading_zeros w)
        < SIZE
    · rw [if_pos hd]
      have hfree := dest_free s.used_slots (u8_leading_zeros w) hd
      rw [page_none_of_bit_false s hs _ hd hfree]
      exact ⟨_, rfl, inv_claim s hs e _ hd⟩
    · rw [if_neg hd]
      exact ⟨_, rfl, inv_push s hs e⟩
  · rw [if_neg he]
    exact ⟨_, rfl, inv_push s hs e⟩

theorem add_inv (s s2 : APQ T) (hs : Inv s) (e : T) (w : Nat)
    (h : s.add e w = .ok s2) : Inv s2 := by
  obtain ⟨s3, h3, hinv⟩ := add_ok_inv s hs e w
  rw [h] at h3
  cases h3
  exact hinv

/-! ### Behaviour of the fast-path loop of `poll` -/

theorem pollFastAux_some (us : Nat) (pages : List (Option T)) (p : T → Bool) :
    ∀ (fuel idx i : Nat) (x : T),
      APQ.pollFastAux us pages p fuel idx = .ok (some (i, x)) →
      i < SIZE ∧ pages[i]? = some (some x) ∧ p x = true := by
  intro fuel
  induction fuel with
  | zero => intro idx i x h; simp [APQ.pollFastAux] at h
  | succ fuel ih =>
    intro idx i x h
    by_cases h64 : 64 ≤ idx
    · simp [APQ.pollFastAux, h64] at h
    · by_cases h8 : SIZE ≤ idx + trailing_zeros64 (us >>> idx)
      · simp [APQ.pollFastAux, h64, h8] at h
      · rcases hn : pages[idx + trailing_zeros64 (us >>> idx)]? with _ | o
        · simp [APQ.pollFastAux, h64, h8, hn] at h
        · rcases o with _ | y
          · simp only [APQ.pollFastAux, if_neg h64, if_neg h8, hn] at h
            exact ih _ _ _ h
          · by_cases hp : p y = true
            · simp only [APQ.pollFastAux, if_neg h64, if_neg h8, hn, hp, if_true] at h
              obtain ⟨h1, h2⟩ := by
                simpa using h
              subst h1; subst h2
              exact ⟨by omega, hn, hp⟩
            · simp only [APQ.pollFastAux, if_neg h64, if_neg h8, hn, hp, if_false] at h
              exact ih _ _ _ h

theorem pollFastAux_total (us : Nat) (pages : List (Option T)) (p : T → Bool)
    (hlen : SIZE ≤ pages.length) :
    ∀ (fuel idx : Nat), idx ≤ SIZE → SIZE + 1 ≤ fuel + idx →
      ∃ r, APQ.pollFastAux us pages p fuel idx = .ok r := by
  intro fuel
  induction fuel with
  | zero =>
    intro idx hidx hfuel
    unfold SIZE at hidx hfuel
    omega
  | succ fuel ih =>
    intro idx hidx hfuel
    have h64 : ¬ 64 ≤ idx := by unfold SIZE at hidx; omega
    by_cases h8 : SIZE ≤ idx + trailing_zeros64 (us >>> idx)
    · exact ⟨none, by simp [APQ.pollFastAux, h64, h8]⟩
    · have hlt : idx + trailing_zeros64 (us >>> idx) < pages.length := by
        omega
      rcases hn : pages[idx + trailing_zeros64 (us >>> idx)]? with _ | o
      · exact absurd (List.getElem?_eq_none_iff.mp hn) (by omega)
      · have hrec : idx + trailing_zeros64 (us >>> idx) + 1 ≤ SIZE := by omega
        have hrecf : SIZE + 1 ≤ fuel + (idx + trailing_zeros64 (us >>> idx) + 1) := by
          have : idx ≤ idx + trailing_zeros64 (us >>> idx) := by omega
          omega
        rcases o with _ | y
        · obtain ⟨r, hr⟩ := ih _ hrec hrecf
          exact ⟨r, by simp only [APQ.pollFastAux, if_neg h64, if_neg h8, hn]; exact hr⟩
        · by_cases hp : p y = true
          · exact ⟨some (idx + trailing_zeros64 (us >>> idx), y),
              by simp only [APQ.pollFastAux, if_neg h64, if_neg h8, hn, hp, if_true]⟩
          · obtain ⟨r, hr⟩ := ih _ hrec hrecf
            exact ⟨r, by simp only [APQ.pollFastAux, if_neg h64, if_neg h8, hn, hp, if_false]; exact hr⟩

/-! ### Behaviour of the overflow scan of `poll` -/

theorem ovScan_some (pages : List (Option T)) (p : T → Bool) :
    ∀ (fuel j : Nat) (x : T), APQ.ovScan pages p fuel = some (j, x) →
      SIZE ≤ j ∧ j < SIZE + fuel ∧ pages[j]? = some (some x) ∧ p x = true := by
  intro fuel
  induction fuel with
  | zero => intro j x h; simp [APQ.ovScan] at h
  | succ fuel ih =>
    intro j x h
    rcases hn : pages[SIZE + fuel]? with _ | o
    · simp only [APQ.ovScan, hn] at h
      obtain ⟨a, b, c, d⟩ := ih j x h
      exact ⟨a, by omega, c, d⟩
    · rcases o with _ | y
      · simp only [APQ.ovScan, hn] at h
        obtain ⟨a, b, c, d⟩ := ih j x h
        exact ⟨a, by omega, c, d⟩
      · by_cases hp : p y = true
        · simp only [APQ.ovScan, hn, hp, if_true] at h
          obtain ⟨h1, h2⟩ := by simpa using h
          subst h1; subst h2
          exact ⟨by omega, by omega, hn, hp⟩
        · simp only [APQ.ovScan, hn, hp, if_false] at h
          obtain ⟨a, b, c, d⟩ := ih j x h
          exact ⟨a, by omega, c, d⟩

theorem ovScan_complete (pages : List (Option T)) (p : T → Bool) :
    ∀ (fuel j : Nat) (x : T), SIZE ≤ j → j < SIZE + fuel →
      pages[j]? = some (some x) → p x = true →
      (∀ (k : Nat) (y : T), j < k → pages[k]? = some (some y) → p y = false) →
      APQ.ovScan pages p fuel = some (j, x) := by
  intro fuel
  induction fuel with
  | zero => intro j x h1 h2; omega
  | succ fuel ih =>
    intro j x h1 h2 h3 h4 hmax
    by_cases hj : j = SIZE + fuel
    · subst hj
      simp only [APQ.ovScan, h3, h4, if_true]
    · have hlt : j < SIZE + fuel := by omega
      have hrec := ih j x h1 hlt h3 h4 hmax
      rcases hn : pages[SIZE + fuel]? with _ | o
      · simp only [APQ.ovScan, hn]; exact hrec
      · rcases o with _ | y
        · simp only [APQ.ovScan, hn]; exact hrec
        · have : p y = false := hmax (SIZE + fuel) y (by omega) hn
          simp only [APQ.ovScan, hn, this, if_false]
          exact hrec

/-! ### Behaviour of `poll` -/

theorem poll_ok_inv (s : APQ T) (hs : Inv s) (p : T → Bool) :
    ∃ r s2, s.poll p = .ok (r, s2) ∧ Inv s2 ∧ s2.pages.length = s.pages.length := by
  obtain ⟨r0, hr0⟩ :=
    pollFastAux_total s.used_slots s.pages p hs.2.1 (SIZE + 1) 0 (by unfold SIZE; omega)
      (by omega)
  unfold APQ.poll
  rw [hr0]
  rcases r0 with _ | ⟨i, x⟩
  · rcases hov : APQ.ovScan s.pages p (s.pages.length - SIZE) with _ | ⟨j, y⟩
    · exact ⟨none, s, rfl, hs, rfl⟩
    · obtain ⟨hj1, _, hj3, _⟩ := ovScan_some s.pages p _ j y hov
      have hjlen : j < s.pages.length := by
        rcases List.getElem?_eq_some_iff.mp hj3 with ⟨hlt, _⟩
        exact hlt
      refine ⟨some y, _, rfl, ⟨hs.1, by simpa using hs.2.1, ?_⟩, by simp⟩
      intro i hi
      have hij : ¬ j = i := by unfold SIZE at hi hj1; omega
      rw [List.getD_eq_getElem?_getD, List.getElem?_set_ne hij]
      simpa [List.getD_eq_getElem?_getD] using hs.2.2 i hi
  · obtain ⟨hi1, hi2, hi3⟩ := pollFastAux_some s.used_slots s.pages p _ _ _ _ hr0
    exact ⟨some x, _, rfl, inv_clear s hs i hi1, by simp⟩

theorem poll_length (s s2 : APQ T) (p : T → Bool) (r : Option T)
    (h : s.poll p = .ok (r, s2)) : s2.pages.length = s.pages.length := by
  unfold APQ.poll at h
  rcases hr0 : APQ.pollFastAux s.used_slots s.pages p (SIZE + 1) 0 with e | r0
  · rw [hr0] at h; cases h
  · rw [hr0] at h
    rcases r0 with _ | ⟨i, x⟩
    · rcases hov : APQ.ovScan s.pages p (s.pages.length - SIZE) with _ | ⟨j, y⟩
      · rw [hov] at h; cases h; rfl
      · rw [hov] at h; cases h; simp
    · cases h; simp

theorem poll_inv (s s2 : APQ T) (hs : Inv s) (p : T → Bool) (r : Option T)
    (h : s.poll p = .ok (r, s2)) : Inv s2 := by
  obtain ⟨r3, s3, h3, hinv, _⟩ := poll_ok_inv s hs p
  rw [h] at h3
  cases h3
  exact hinv

/-! ### Behaviour of `remove` -/

theorem remove_fst_iff [DecidableEq T] (s : APQ T) (x : T) :
    (s.remove x).1 = true ↔ some x ∈ s.pages := by
  unfold APQ.remove
  rcases hfind : s.pages.findIdx? (fun item => item = some x) with _ | i
  · rw [List.findIdx?_eq_none_iff] at hfind
    simp only [ite_self]
    constructor
    · intro h; cases h
    · intro hmem
      have := hfind (some x) hmem
      simp at this
  · rw [List.findIdx?_eq_some_iff_getElem] at hfind
    obtain ⟨hlt, hp, _⟩ := hfind
    have hmem : some x ∈ s.pages := by
      have : s.pages[i] = some x := by simpa using hp
      rw [← this]
      exact List.getElem_mem hlt
    by_cases hge : SIZE ≤ i <;> simp [hge, hmem]

theorem findIdx_of_first (l : List (Option T)) [DecidableEq T] (x : T) (i : Nat)
    (h1 : l[i]? = some (some x)) (h2 : ∀ j, j < i → l[j]? ≠ some (some x)) :
    l.findIdx? (fun item => item = some x) = some i := by
  rw [List.findIdx?_eq_some_iff_getElem]
  rcases List.getElem?_eq_some_iff.mp h1 with ⟨hlt, hget⟩
  refine ⟨hlt, by simp [hget], ?_⟩
  intro j hji
  have hjlt : j < l.length := by omega
  have := h2 j hji
  rw [List.getElem?_eq_getElem hjlt] at this
  simp only [decide_eq_true_eq]
  intro heq
  exact this (by rw [heq])

theorem count_set_none [DecidableEq T] :
    ∀ (l : List (Option T)) (i : Nat) (x : T), l[i]? = some (some x) →
      (l.set i none).count (some x) + 1 = l.count (some x) := by
  intro l
  induction l with
  | nil => intro i x h; simp at h
  | cons a t ih =>
    intro i x h
    cases i with
    | zero =>
      simp only [List.getElem?_cons_zero, Option.some.injEq] at h
      subst h
      simp [List.count_cons]
    | succ i2 =>
      simp only [List.getElem?_cons_succ] at h
      have := ih i2 x h
      simp only [List.set_cons_succ, List.count_cons]
      omega

theorem count_eraseIdx_within [DecidableEq T] :
    ∀ (l : List (Option T)) (i : Nat) (x : T), l[i]? = some (some x) →
      (l.eraseIdx i).count (some x) + 1 = l.count (some x) := by
  intro l
  induction l with
  | nil => intro i x h; simp at h
  | cons a t ih =>
    intro i x h
    cases i with
    | zero =>
      simp only [List.getElem?_cons_zero, Option.some.injEq] at h
      subst h
      simp [List.count_cons]
    | succ i2 =>
      simp only [List.getElem?_cons_succ] at h
      have := ih i2 x h
      simp only [List.eraseIdx_cons_succ, List.count_cons]
      omega

theorem remove_inv [DecidableEq T] (s : APQ T) (hs : Inv s) (x : T) :
    Inv (s.remove x).2 := by
  unfold APQ.remove
  rcases hfind : s.pages.findIdx? (fun item => item = some x) with _ | i
  · exact hs
  · have hlt : i < s.pages.length :=
      (List.findIdx?_eq_some_iff_getElem.mp hfind).1
    by_cases hge : SIZE ≤ i
    · simp only [hge, if_true]
      refine ⟨hs.1, ?_, ?_⟩
      · rw [List.length_eraseIdx_of_lt hlt]
        unfold SIZE at hge ⊢
        omega
      · intro j hj
        have hji : j < i := by unfold SIZE at hge hj; omega
        rw [List.getD_eq_getElem?_getD, List.getElem?_eraseIdx_of_lt _ _ _ hji]
        simpa [List.getD_eq_getElem?_getD] using hs.2.2 j hj
    · simp only [hge, if_false]
      exact inv_clear s hs i (by unfold SIZE at hge ⊢; omega)

/-! ### Every reachable state satisfies the invariant -/

theorem reachable_inv [DecidableEq T] (s : APQ T) (hs : Reachable s) : Inv s := by
  induction hs with
  | new => exact inv_new
  | add entry weight hw hs h ih => exact add_inv _ _ ih entry weight h
  | poll p r hs h ih => exact poll_inv _ _ ih p r h
  | remove entry hs ih => exact remove_inv _ ih entry

/-! ### Claim theorems -/

/-- C1: for every queue state reachable from a newly constructed
`ApproximatePriorityQueue` by any sequence of `add`/`poll`/`remove`
calls, and for every index `i` in `[0, SIZE)`, occupancy bit `i` of
`used_slots` is set exactly when fast-path position `i` of `pages`
holds an entry. -/
theorem c1_occupancy_invariant [DecidableEq T] (s : APQ T) (hs : Reachable s) :
    ∀ i, i < SIZE → s.used_slots.testBit i = (s.pages.getD i none).isSome :=
  (reachable_inv s hs).2.2

theorem c1_occupancy_invariant_witness :
    (APQ.new : APQ Nat).used_slots.testBit 0 =
      ((APQ.new : APQ Nat).pages.getD 0 none).isSome :=
  c1_occupancy_invariant APQ.new Reachable.new 0 (by decide)

/-- C2: `is_empty` returns true exactly when the occupancy bitmap is
zero, and the reachable state holding a single overflow-only entry
(reached from new by `add` with weight 0) is reported empty although
`poll` with an always-true predicate still returns the entry and
`remove` of that entry still returns true. -/
theorem c2_is_empty_quirk :
    (∀ (T2 : Type) (s : APQ T2), s.is_empty = true ↔ s.used_slots = 0)
    ∧ APQ.add (APQ.new : APQ Nat) 7 0 = .ok ⟨List.replicate 8 none ++ [some 7], 0⟩
    ∧ (⟨List.replicate 8 none ++ [some 7], 0⟩ : APQ Nat).is_empty = true
    ∧ (⟨List.replicate 8 none ++ [some 7], 0⟩ : APQ Nat).poll (fun _ => true) =
        .ok (some 7, ⟨List.replicate 8 none ++ [none], 0⟩)
    ∧ ((⟨List.replicate 8 none ++ [some 7], 0⟩ : APQ Nat).remove 7).1 = true :=
  ⟨fun T2 s => by simp [APQ.is_empty], by rfl, by rfl, by rfl, by rfl⟩

/-- C3 counterexample: for the 8-bit weight 0 the computed bucket index
`leading_zero_count(0)` is 8, not at most 7, and `add` with weight 0
takes the direct-to-overflow branch (`expected_slot >= SIZE`): from the
new queue it appends the entry to the overflow tail, leaving the bitmap
untouched, rather than targeting a fast-path bucket. -/
theorem c3_counterexample :
    u8_leading_zeros 0 = 8
    ∧ ¬ u8_leading_zeros 0 ≤ 7
    ∧ ¬ u8_leading_zeros 0 < SIZE
    ∧ APQ.add (APQ.new : APQ Nat) 5 0 = .ok ⟨List.replicate 8 none ++ [some 5], 0⟩ :=
  ⟨rfl, by decide, by decide, by rfl⟩

/-- C3 amended: for every 8-bit weight `w` in `[1, 255]` the bucket
index `leading_zero_count(w)` is strictly below `SIZE`, so the
direct-overflow branch is not taken for those weights; for `w = 0` the
bucket index equals `SIZE` (the weight type is 8 bits wide, so
`leading_zero_count(0) = 8 = SIZE`) and `add(entry, 0)` appends the
entry directly to the overflow tail. -/
theorem c3_amended_leading_zeros :
    (∀ w, 1 ≤ w → w < 256 → u8_leading_zeros w < SIZE)
    ∧ (∀ (s : APQ Nat) (e : Nat), s.add e 0 = .ok ⟨s.pages ++ [some e], s.used_slots⟩)
    ∧ u8_leading_zeros 0 = SIZE := by
  refine ⟨?_, ?_, rfl⟩
  · intro w h1 h2
    have hw0 : w ≠ 0 := by omega
    have hlen : 1 ≤ bitLenAux 8 w := by
      unfold bitLenAux
      rw [if_neg hw0]
      omega
    unfold u8_leading_zeros SIZE
    omega
  · intro s e
    simp [APQ.add, u8_leading_zeros, bitLenAux, SIZE]

theorem c3_amended_leading_zeros_witness :
    u8_leading_zeros 255 < SIZE
    ∧ APQ.add (APQ.new : APQ Nat) 5 0 =
        .ok ⟨(APQ.new : APQ Nat).pages ++ [some 5], (APQ.new : APQ Nat).used_slots⟩ :=
  ⟨c3_amended_leading_zeros.1 255 (by decide) (by decide),
   c3_amended_leading_zeros.2.1 APQ.new 5⟩

/-- C4: starting from an empty queue, after `add(A, 2)`, `add(B, 1)`,
`add(C, 0)`, three successive polls with an always-true predicate
return `A`, then `B`, then `C` (here `A = 10`, `B = 20`, `C = 30`). -/
theorem c4_priority_order :
    ((APQ.new : APQ Nat).add 10 2).bind (fun s1 =>
      (s1.add 20 1).bind (fun s2 =>
        (s2.add 30 0).bind (fun s3 =>
          (s3.poll (fun _ => true)).bind (fun r1 =>
            (r1.2.poll (fun _ => true)).bind (fun r2 =>
              (r2.2.poll (fun _ => true)).map (fun r3 => (r1.1, r2.1, r3.1)))))))
      = .ok (some 10, some 20, some 30) := by rfl

/-- C5 counterexample: at the concrete reachable state with the single
overflow entry 5 (weight 0), poll with an always-true predicate returns
that overflow entry but leaves the backing sequence at length 9 with a
`none` placeholder in the matched position — the overflow sequence's
length does not decrease by one and nothing shifts down, contrary to
the claim. -/
theorem c5_counterexample :
    (⟨List.replicate 8 none ++ [some 5], 0⟩ : APQ Nat).poll (fun _ => true) =
      .ok (some 5, ⟨List.replicate 8 none ++ [none], 0⟩)
    ∧ (List.replicate 8 (none : Option Nat) ++ [none]).length =
        (List.replicate 8 (none : Option Nat) ++ [some 5]).length :=
  ⟨by rfl, by rfl⟩

/-- C5 amended: whenever `poll` finds no matching entry in any
fast-path bucket but some overflow entry matches, it returns the
matching entry at the greatest index (the most recently inserted
matching overflow entry) and replaces that position with an empty
placeholder; the backing sequence's length is unchanged and no entries
shift. -/
theorem c5_poll_overflow_replaces (s : APQ T) (p : T → Bool)
    (hfast : APQ.pollFastAux s.used_slots s.pages p (SIZE + 1) 0 = .ok none)
    (j : Nat) (x : T) (hj : SIZE ≤ j) (hx : s.pages[j]? = some (some x))
    (hpx : p x = true)
    (hmax : ∀ (k : Nat) (y : T), j < k → s.pages[k]? = some (some y) → p y = false) :
    s.poll p = .ok (some x, ⟨s.pages.set j none, s.used_slots⟩)
    ∧ (s.pages.set j none).length = s.pages.length := by
  have hjlen : j < s.pages.length := (List.getElem?_eq_some_iff.mp hx).1
  have hscan : APQ.ovScan s.pages p (s.pages.length - SIZE) = some (j, x) :=
    ovScan_complete s.pages p _ j x hj (by unfold SIZE at hj ⊢; omega) hx hpx hmax
  unfold APQ.poll
  rw [hfast, hscan]
  exact ⟨rfl, by simp⟩

theorem c5_poll_overflow_replaces_witness :
    (⟨List.replicate 8 none ++ [some 5], 0⟩ : APQ Nat).poll (fun _ => true) =
      .ok (some 5, ⟨(List.replicate 8 (none : Option Nat) ++ [some 5]).set 8 none, 0⟩)
    ∧ ((List.replicate 8 (none : Option Nat) ++ [some 5]).set 8 none).length =
        (List.replicate 8 (none : Option Nat) ++ [some 5]).length := by
  refine c5_poll_overflow_replaces ⟨List.replicate 8 none ++ [some 5], 0⟩
    (fun _ => true) (by rfl) 8 5 (by decide) (by rfl) rfl ?_
  intro k y hk hget
  have hlt : k < 9 := by
    have h9 := (List.getElem?_eq_some_iff.mp hget).1
    simpa using h9
  omega

/-- C6: `remove(x)` returns true exactly when some stored page holds an
entry equal to `x`; it acts on the first such index `i` in increasing
order — an index below `SIZE` has its page cleared to `none` and its
occupancy bit cleared (length unchanged), an index in the overflow tail
is removed from the sequence, shrinking it by one; and when exactly one
equal entry was present, an immediately following `remove(x)` returns
false. -/
theorem c6_remove_correct [DecidableEq T] (s : APQ T) (x : T) :
    ((s.remove x).1 = true ↔ some x ∈ s.pages)
    ∧ (∀ i, s.pages[i]? = some (some x) →
        (∀ j, j < i → s.pages[j]? ≠ some (some x)) →
        (i < SIZE →
          (s.remove x).2 = ⟨s.pages.set i none, s.used_slots &&& u64not (1 <<< i)⟩
          ∧ (s.remove x).2.used_slots.testBit i = false
          ∧ (s.remove x).2.pages.length = s.pages.length)
        ∧ (SIZE ≤ i →
          (s.remove x).2 = ⟨s.pages.eraseIdx i, s.used_slots⟩
          ∧ (s.remove x).2.pages.length + 1 = s.pages.length))
    ∧ (s.pages.count (some x) = 1 → ((s.remove x).2.remove x).1 = false) := by
  refine ⟨remove_fst_iff s x, ?_, ?_⟩
  · intro i hget hfirst
    have hfind := findIdx_of_first s.pages x i hget hfirst
    have hlt : i < s.pages.length := (List.getElem?_eq_some_iff.mp hget).1
    constructor
    · intro hiS
      have hge : ¬ SIZE ≤ i := by omega
      have hstate : (s.remove x).2 =
          ⟨s.pages.set i none, s.used_slots &&& u64not (1 <<< i)⟩ := by
        unfold APQ.remove
        rw [hfind]
        simp [hge]
      refine ⟨hstate, ?_, by rw [hstate]; simp⟩
      rw [hstate]
      have hi64 : i < 64 := by unfold SIZE at hiS; omega
      rw [testBit_and_u64not_shiftLeft _ _ _ hi64]
      simp
    · intro hiS
      have hstate : (s.remove x).2 = ⟨s.pages.eraseIdx i, s.used_slots⟩ := by
        unfold APQ.remove
        rw [hfind]
        simp [hiS]
      refine ⟨hstate, ?_⟩
      rw [hstate]
      simp only [List.length_eraseIdx_of_lt hlt]
      omega
  · intro hcount
    rw [← Bool.not_eq_true, remove_fst_iff]
    intro hmem
    have hne : ¬ (s.remove x).2.pages.count (some x) = 0 := fun h0 =>
      (List.count_eq_zero.mp h0) hmem
    rcases hfind : s.pages.findIdx? (fun item => item = some x) with _ | i
    · rw [List.findIdx?_eq_none_iff] at hfind
      have hmem0 : some x ∈ s.pages := by
        by_contra hno
        have := List.count_eq_zero.mpr hno
        omega
      have := hfind (some x) hmem0
      simp at this
    · have hspec := List.findIdx?_eq_some_iff_getElem.mp hfind
      obtain ⟨hlt, hp, _⟩ := hspec
      have hgeti : s.pages[i]? = some (some x) := by
        rw [List.getElem?_eq_getElem hlt]
        simpa using hp
      have hstate : (s.remove x).2.pages.count (some x) + 1 = s.pages.count (some x) := by
        unfold APQ.remove
        rw [hfind]
        by_cases hge : SIZE ≤ i
        · simp only [hge, if_true]
          exact count_eraseIdx_within s.pages i x hgeti
        · simp only [hge, if_false]
          exact count_set_none s.pages i x hgeti
      omega

theorem c6_remove_correct_witness :
    (((⟨[some 3], 0⟩ : APQ Nat).remove 3).2.remove 3).1 = false :=
  (c6_remove_correct ⟨[some 3], 0⟩ 3).2.2 (by rfl)

/-- C7: for every word below `2 ^ 64` and every index below 64,
`set_bit i` returns true exactly when bit `i` was clear before the call
and leaves bit `i` set, `unset_bit i` returns true exactly when bit `i`
was set before the call and leaves bit `i` clear, and both operations
leave every other bit of the word unchanged. -/
theorem c7_set_unset_bit (w i : Nat) (hw : w < 2 ^ 64) (hi : i < 64) :
    ((set_bit w i).1 = true ↔ w.testBit i = false)
    ∧ (set_bit w i).2.testBit i = true
    ∧ (∀ j, j ≠ i → (set_bit w i).2.testBit j = w.testBit j)
    ∧ ((unset_bit w i).1 = true ↔ w.testBit i = true)
    ∧ (unset_bit w i).2.testBit i = false
    ∧ (∀ j, j ≠ i → (unset_bit w i).2.testBit j = w.testBit j) := by
  refine ⟨?_, ?_, ?_, ?_, ?_, ?_⟩
  · simp [set_bit, and_one_shiftLeft_eq_zero_iff]
  · simp [set_bit, Nat.one_shiftLeft, Nat.testBit_or, Nat.testBit_two_pow_self]
  · intro j hj
    simp [set_bit, Nat.one_shiftLeft, Nat.testBit_or,
      Nat.testBit_two_pow_of_ne (Ne.symm hj)]
  · simp [unset_bit, and_one_shiftLeft_eq_zero_iff]
  · show (w &&& u64not (1 <<< i)).testBit i = false
    rw [testBit_and_u64not_shiftLeft _ _ _ hi]
    simp
  · intro j hj
    show (w &&& u64not (1 <<< i)).testBit j = w.testBit j
    by_cases hj64 : j < 64
    · rw [testBit_and_u64not_shiftLeft _ _ _ hj64]
      simp [Ne.symm hj]
    · have hwj : w.testBit j = false :=
        Nat.testBit_lt_two_pow
          (lt_of_lt_of_le hw (Nat.pow_le_pow_right (by omega) (by omega)))
      rw [Nat.testBit_and, testBit_u64not_ge _ _ (by omega), Nat.one_shiftLeft,
        Nat.testBit_two_pow_of_ne (by omega), hwj]
      simp

theorem c7_set_unset_bit_witness :
    (set_bit 0 5).2.testBit 5 = true :=
  (c7_set_unset_bit 0 5 (by positivity) (by decide)).2.1

/-- C8: on every reachable queue state, `poll` returns `Ok` for every
predicate (the internal `checked_shr` error branch is never taken) and
`add` returns `Ok` for every entry and 8-bit weight; `remove` and
`is_empty` are plain functions with no error channel in the embedding,
so any error among the public operations could only come from the two
`Result`-returning ones, and neither ever produces one. -/
theorem c8_only_add_errors [DecidableEq T] (s : APQ T) (hs : Reachable s) :
    (∀ p : T → Bool, isOkB (s.poll p) = true)
    ∧ (∀ (entry : T) (w : Nat), w < 256 → isOkB (s.add entry w) = true) := by
  have hinv := reachable_inv s hs
  constructor
  · intro p
    obtain ⟨r, s2, h, _, _⟩ := poll_ok_inv s hinv p
    rw [h]
    rfl
  · intro entry w hw
    obtain ⟨s2, h, _⟩ := add_ok_inv s hinv entry w
    rw [h]
    rfl

theorem c8_only_add_errors_witness :
    isOkB ((APQ.new : APQ Nat).poll (fun _ => true)) = true
    ∧ isOkB ((APQ.new : APQ Nat).add 3 7) = true :=
  ⟨(c8_only_add_errors APQ.new Reachable.new).1 (fun _ => true),
   (c8_only_add_errors APQ.new Reachable.new).2 3 7 (by decide)⟩

/-- C9: every reachable queue state keeps the backing sequence at least
`SIZE` pages long (so poll's overflow-window arithmetic
`pages.len() - SIZE` never underflows), `poll` never changes the length
of the backing sequence (an overflow poll only replaces the matched
entry with a placeholder), and a `remove` whose first matching index is
below `SIZE` leaves the length unchanged — the sequence shrinks only
when removal happens at an index at or beyond `SIZE`. -/
theorem c9_length_invariant [DecidableEq T] (s : APQ T) (hs : Reachable s) :
    SIZE ≤ s.pages.length
    ∧ (∀ (p : T → Bool) (r : Option T) (s2 : APQ T),
        s.poll p = .ok (r, s2) → s2.pages.length = s.pages.length)
    ∧ (∀ (x : T) (i : Nat), s.pages[i]? = some (some x) →
        (∀ j, j < i → s.pages[j]? ≠ some (some x)) → i < SIZE →
        (s.remove x).2.pages.length = s.pages.length) := by
  refine ⟨(reachable_inv s hs).2.1, ?_, ?_⟩
  · intro p r s2 h
    exact poll_length s s2 p r h
  · intro x i hget hfirst hiS
    have hfind := findIdx_of_first s.pages x i hget hfirst
    have hge : ¬ SIZE ≤ i := by omega
    unfold APQ.remove
    rw [hfind]
    simp [hge]

theorem c9_length_invariant_witness :
    SIZE ≤ (APQ.new : APQ Nat).pages.length :=
  (c9_length_invariant APQ.new Reachable.new).1

theorem setBitSeq_replicate (i : Nat) :
    ∀ (n w : Nat), w.testBit i = true → setBitSeq i w n = List.replicate n false := by
  intro n
  induction n with
  | zero => intro w h; rfl
  | succ n ih =>
    intro w h
    have h1 : ¬ w &&& (1 <<< i) = 0 := by
      intro h0
      rw [and_one_shiftLeft_eq_zero_iff] at h0
      rw [h] at h0
      simp at h0
    have h2 : (w ||| (1 <<< i)).testBit i = true := by
      rw [Nat.one_shiftLeft, Nat.testBit_or, Nat.testBit_two_pow_self]
      simp
    simp only [setBitSeq, set_bit]
    rw [List.replicate_succ]
    congr 1
    · simp [h1]
    · exact ih _ h2

/-- C10: the linearization of `n` concurrent `set_bit(i)` calls (the
atomic `fetch_or` makes any concurrent schedule equivalent to some
sequential order of the identical calls) starting from a word with bit
`i` clear yields exactly one true result and `n - 1` false results. -/
theorem c10_concurrent_claim (n w i : Nat) (hn : 1 ≤ n) (_hi : i < 64)
    (hw : w.testBit i = false) :
    (setBitSeq i w n).count true = 1
    ∧ (setBitSeq i w n).count false = n - 1
    ∧ (setBitSeq i w n).length = n := by
  obtain ⟨m, rfl⟩ : ∃ m, n = m + 1 := ⟨n - 1, by omega⟩
  have hfirst : (set_bit w i).1 = true := by
    simp [set_bit, and_one_shiftLeft_eq_zero_iff, hw]
  have hbit : ((set_bit w i).2).testBit i = true := by
    simp [set_bit, Nat.one_shiftLeft, Nat.testBit_or, Nat.testBit_two_pow_self]
  have hrest : setBitSeq i (set_bit w i).2 m = List.replicate m false :=
    setBitSeq_replicate i m _ hbit
  show ((set_bit w i).1 :: setBitSeq i (set_bit w i).2 m).count true = 1
    ∧ ((set_bit w i).1 :: setBitSeq i (set_bit w i).2 m).count false = m + 1 - 1
    ∧ ((set_bit w i).1 :: setBitSeq i (set_bit w i).2 m).length = m + 1
  rw [hrest, hfirst]
  refine ⟨?_, ?_, ?_⟩
  · simp [List.count_cons, List.count_replicate]
  · simp [List.count_cons, List.count_replicate]
  · simp

theorem c10_concurrent_claim_witness :
    (setBitSeq 2 0 3).count true = 1 :=
  (c10_concurrent_claim 3 0 2 (by decide) (by decide) (by decide)).1

end LuceneInRust
